import Mathlib

/-!
# NifSkope: shader-program conditions and the Attach .KF link arrays

A shallow embedding of

* `src/src/gl/renderer.h`: the comparison templates of `Renderer::ConditionSingle`
  (`compare<T>`, `compare<float>`, `compare<QString>`) and the inline constructor and
  accessor of `Renderer::ConditionGroup`;
* `src/spells/animation.cpp`: `spAttachKf::setLinkArray`.

The `NifModel` accessors that `setLinkArray` calls are not part of these sources; they are
modelled separately and are marked as such in their doc comments.  The bodies of
`ConditionGroup::eval` and `Renderer::setupProgram` are not part of these sources either and
are not embedded.
-/

set_option autoImplicit false

/-! ## Value types -/

/-- A `QString` is a sequence of UTF-16 code units.  Equality of two `QString`s is equality
of the sequences and `operator<` is their lexicographic order, which is the order on
`List Nat`.  The empty list is the null / empty string `QString()`. -/
abbrev QString := List Nat

/-- Value of a C++ `float` as far as the comparison operators can tell: not-a-number, one of
the two infinities, or a finite value.  Both signed zeros are `fin 0`; the comparison
operators do not distinguish them. -/
inductive CFloat where
  | nan
  | ninf
  | fin (q : ℚ)
  | pinf
  deriving DecidableEq

namespace CFloat

/-- C++ `a == b` on floats: false as soon as one side is NaN. -/
def eq : CFloat → CFloat → Bool
  | nan, _ => false
  | _, nan => false
  | ninf, ninf => true
  | pinf, pinf => true
  | fin a, fin b => decide (a = b)
  | _, _ => false

/-- C++ `a < b` on floats: false as soon as one side is NaN. -/
def lt : CFloat → CFloat → Bool
  | nan, _ => false
  | _, nan => false
  | ninf, ninf => false
  | ninf, _ => true
  | fin _, ninf => false
  | fin a, fin b => decide (a < b)
  | fin _, pinf => true
  | pinf, _ => false

/-- C++ `a != b` on floats, the negation of `==` (true when one side is NaN). -/
def ne (a b : CFloat) : Bool := !eq a b

/-- C++ `a <= b` on floats. -/
def le (a b : CFloat) : Bool := lt a b || eq a b

/-- C++ `a > b` on floats. -/
def gt (a b : CFloat) : Bool := lt b a

/-- C++ `a >= b` on floats. -/
def ge (a b : CFloat) : Bool := le b a

end CFloat

/-! ## `Renderer::ConditionSingle` -/

namespace Renderer

/-- The enum `Renderer::ConditionSingle::Type` (`Type` is reserved in Lean, hence the name). -/
inductive CompType where
  | NONE
  | EQ
  | NE
  | LE
  | GE
  | LT
  | GT
  | AND
  | NAND
  deriving DecidableEq, Repr

/-- The ordering operators `<`, `<=`, `>`, `>=`. -/
def CompType.isOrdering : CompType → Bool
  | .LE | .GE | .LT | .GT => true
  | _ => false

/-- The bitwise operators. -/
def CompType.isBitwise : CompType → Bool
  | .AND | .NAND => true
  | _ => false

/-- The data members of `Renderer::ConditionSingle`. -/
structure ConditionSingle where
  left : QString
  right : QString
  comp : CompType
  invert : Bool
  deriving DecidableEq

namespace ConditionSingle

/-- The primary template `Renderer::ConditionSingle::compare<T>` at an integer type `T`.
The member `comp`, the only one the function reads, is passed explicitly.  `a & b` is the
two's complement conjunction `Int.land`; returning it as `bool` tests it against zero. -/
def compare (comp : CompType) (a b : Int) : Bool :=
  match comp with
  | .EQ => decide (a = b)
  | .NE => decide (a ≠ b)
  | .LE => decide (a ≤ b)
  | .GE => decide (a ≥ b)
  | .LT => decide (a < b)
  | .GT => decide (a > b)
  | .AND => decide (Int.land a b ≠ 0)
  | .NAND => !decide (Int.land a b ≠ 0)
  | _ => true

/-- The specialisation `Renderer::ConditionSingle::compare<float>`. -/
def compare_float (comp : CompType) (a b : CFloat) : Bool :=
  match comp with
  | .EQ => CFloat.eq a b
  | .NE => CFloat.ne a b
  | .LE => CFloat.le a b
  | .GE => CFloat.ge a b
  | .LT => CFloat.lt a b
  | .GT => CFloat.gt a b
  | _ => true

/-- The specialisation `Renderer::ConditionSingle::compare<QString>`. -/
def compare_QString (comp : CompType) (a b : QString) : Bool :=
  match comp with
  | .EQ => decide (a = b)
  | .NE => decide (a ≠ b)
  | _ => false

end ConditionSingle

/-! ## `Renderer::Condition` and `Renderer::ConditionGroup` -/

/-- The class hierarchy below `Renderer::Condition`: a condition is a `ConditionSingle` or a
`ConditionGroup`, and a group holds the list `conditions` and the flag `_or`. -/
inductive Condition where
  | single (c : ConditionSingle)
  | group (conditions : List Condition) (_or : Bool)

/-- The data members of `Renderer::ConditionGroup`. -/
structure ConditionGroup where
  conditions : List Condition
  _or : Bool

namespace ConditionGroup

/-- The constructor `ConditionGroup( bool o = false ) { _or = o; }` called with an argument;
the list `conditions` starts empty. -/
def ctor (o : Bool) : ConditionGroup :=
  { conditions := [], _or := o }

/-- The constructor `ConditionGroup( bool o = false )` called without an argument, which is
how the member `ConditionGroup conditions;` of `Renderer::Program` is declared: the default
argument `false` is passed. -/
def ctor_default : ConditionGroup :=
  ctor false

/-- The accessor `bool isOrGroup() const { return _or; }`. -/
def isOrGroup (g : ConditionGroup) : Bool :=
  g._or

end ConditionGroup

end Renderer

/-! ## `NifModel` as used by `spAttachKf::setLinkArray` -/

/-- Modelled from the spec: `NifModel` is the scene-graph model, an external collaborator that
is not in the sources; the spec says of it only that it answers attribute queries by name.
What follows models as much of it as `setLinkArray` calls.  An item of a block has a name, an
integer value and, when it is an array, the links held by its rows, in row order. -/
structure NifItem where
  name : QString
  value : Int
  links : List Int
  deriving DecidableEq

/-- Modelled from the spec: the scene-graph model as a list of blocks, each a list of named
items; the block number of a block is its position. -/
structure NifModel where
  blocks : List (List NifItem)
  deriving DecidableEq

/-- A `QModelIndex` (or `QPersistentModelIndex`) into a `NifModel`: the invalid index, the
index of a block, or the index of item `r` of block `b`. -/
inductive QModelIndex where
  | invalid
  | block (b : Nat)
  | item (b : Nat) (r : Nat)
  deriving DecidableEq

/-- `QModelIndex::isValid()`. -/
def QModelIndex.isValid : QModelIndex → Bool
  | .invalid => false
  | _ => true

namespace NifModel

/-- Item `r` of block `b`, when there is one. -/
def item? (nif : NifModel) (b r : Nat) : Option NifItem :=
  match nif.blocks[b]? with
  | some items => items[r]?
  | none => none

/-- Replaces item `r` of block `b`; nothing happens when there is no such item. -/
def setItem (nif : NifModel) (b r : Nat) (it : NifItem) : NifModel :=
  match nif.blocks[b]? with
  | some items => { blocks := nif.blocks.set b (items.set r it) }
  | none => nif

/-- The row of the first item with the given name, when there is one. -/
def findName (name : QString) : List NifItem → Option Nat
  | [] => none
  | it :: rest => if it.name = name then some 0 else (findName name rest).map (· + 1)

/-- Modelled from the spec: `NifModel::getIndex( parent, name )`, attribute lookup by name:
the first item of the block with that name, the invalid index when there is none. -/
def getIndex (nif : NifModel) (parent : QModelIndex) (name : QString) : QModelIndex :=
  match parent with
  | .block b =>
    match nif.blocks[b]? with
    | some items =>
      match findName name items with
      | some r => .item b r
      | none => .invalid
    | none => .invalid
  | _ => .invalid

/-- Modelled from the spec: `NifModel::getBlockNumber( index )`, the number of the block the
index lies in, and `-1` for an index that lies in no block of the model. -/
def getBlockNumber (nif : NifModel) : QModelIndex → Int
  | .invalid => -1
  | .block b => if b < nif.blocks.length then (b : Int) else -1
  | .item b _ => if b < nif.blocks.length then (b : Int) else -1

/-- Modelled from the spec: `NifModel::getLinkArray( iArray )`, the links held by the rows of
the array, in row order. -/
def getLinkArray (nif : NifModel) : QModelIndex → List Int
  | .item b r =>
    match nif.item? b r with
    | some it => it.links
    | none => []
  | _ => []

/-- Modelled from the spec: `NifModel::get<int>( index )`, the integer value of the item. -/
def get_int (nif : NifModel) : QModelIndex → Int
  | .item b r =>
    match nif.item? b r with
    | some it => it.value
    | none => 0
  | _ => 0

/-- Modelled from the spec: `NifModel::set<int>( index, n )`, which stores `n` as the value of
the item. -/
def set_int (nif : NifModel) (index : QModelIndex) (n : Int) : NifModel :=
  match index with
  | .item b r =>
    match nif.item? b r with
    | some it => nif.setItem b r { it with value := n }
    | none => nif
  | _ => nif

/-- The text `QString( "Num %1" ).arg( array )`: the characters of "Num " followed by the
array's name. -/
def numName (array : QString) : QString :=
  [78, 117, 109, 32] ++ array

/-- An array's rows cut or extended to `n` rows; a new row holds the null link `-1`. -/
def resize (n : Nat) (ls : List Int) : List Int :=
  ls.take n ++ List.replicate (n - ls.length) (-1)

/-- Modelled from the spec: `NifModel::updateArray( iArray )`, not in the sources, which
brings the number of rows of the array to the value of its count item; the count item is the
item `Num <array>` of the same block, the one `setLinkArray` writes before this call. -/
def updateArray (nif : NifModel) (iArray : QModelIndex) : NifModel :=
  match iArray with
  | .item b r =>
    match nif.item? b r with
    | some it =>
      match nif.getIndex (.block b) (numName it.name) with
      | .item b' r' =>
        match nif.item? b' r' with
        | some num => nif.setItem b r { it with links := resize num.value.toNat it.links }
        | none => nif
      | _ => nif
    | none => nif
  | _ => nif

/-- Modelled from the spec: `NifModel::setLinkArray( iArray, links )`, not in the sources,
which writes `links[c]` into row `c` for every row `c` that both the array and `links` have. -/
def setLinkArray (nif : NifModel) (iArray : QModelIndex) (links : List Int) : NifModel :=
  match iArray with
  | .item b r =>
    match nif.item? b r with
    | some it =>
      nif.setItem b r { it with links := links.take it.links.length ++ it.links.drop links.length }
    | none => nif
  | _ => nif

end NifModel

namespace spAttachKf

/-- The text `Spell::tr( "array %1 not found" ).arg( array )` that `setLinkArray` throws. -/
def arrayNotFound (array : QString) : QString :=
  [97, 114, 114, 97, 121, 32] ++ array ++ [32, 110, 111, 116, 32, 102, 111, 117, 110, 100]

/-- The loop `foreach ( QModelIndex iBlock, iBlocks ) if ( ! links.contains( n ) )
links.append( n )` of `setLinkArray`, with `n = nif->getBlockNumber( iBlock )`. -/
def appendBlocks (nif : NifModel) (links : List Int) (iBlocks : List QModelIndex) : List Int :=
  iBlocks.foldl
    (fun links iBlock =>
      if nif.getBlockNumber iBlock ∈ links then links
      else links ++ [nif.getBlockNumber iBlock])
    links

/-- The function `spAttachKf::setLinkArray`.  The result pairs the outcome, the thrown
`QString` or normal return, with the model as the call leaves it. -/
def setLinkArray (nif : NifModel) (iParent : QModelIndex) (array : QString)
    (iBlocks : List QModelIndex) : Except QString Unit × NifModel :=
  let iNum := nif.getIndex iParent (NifModel.numName array)
  let iArray := nif.getIndex iParent array
  if !iNum.isValid || !iArray.isValid then
    (.error (arrayNotFound array), nif)
  else
    let links := appendBlocks nif (nif.getLinkArray iArray) iBlocks
    let nif1 := nif.set_int iNum (links.length : Int)
    let nif2 := nif1.updateArray iArray
    let nif3 := nif2.setLinkArray iArray links
    (.ok (), nif3)

end spAttachKf

/-! ## Invariants used in the proofs -/

/-- Where `setLinkArray` finds its two items: in block `b` the lookup of `Num <array>` gives
row `rn`, holding `numIt`, and the lookup of `array` gives another row `ra`, holding `arrIt`. -/
structure spAttachKf.Located (nif : NifModel) (b rn ra : Nat) (array : QString)
    (numIt arrIt : NifItem) : Prop where
  hnum : nif.getIndex (.block b) (NifModel.numName array) = .item b rn
  harr : nif.getIndex (.block b) array = .item b ra
  inum : nif.item? b rn = some numIt
  iarr : nif.item? b ra = some arrIt
  name : arrIt.name = array
  ne : rn ≠ ra

/-- The model after the three writes of `setLinkArray`: the count item `numIt` at row `rn`
gets the value `links.length`, the array `arrIt` at row `ra` is resized to that many rows and
then filled with `links`. -/
def spAttachKf.written (nif : NifModel) (b rn ra : Nat) (numIt arrIt : NifItem)
    (links : List Int) : NifModel :=
  ((nif.setItem b rn { numIt with value := (links.length : Int) }).setItem b ra
    { arrIt with links := NifModel.resize links.length arrIt.links }).setItem b ra
    { arrIt with links := links }

/-! ## Auxiliary facts -/

/-- An integer is non-zero exactly when one of its (two's complement) bits is set. -/
theorem int_ne_zero_iff_exists_testBit (x : Int) : x ≠ 0 ↔ ∃ i, x.testBit i = true := by
  cases x with
  | ofNat n =>
    constructor
    · intro h
      have hn : n ≠ 0 := by
        intro h0
        apply h
        simp [h0]
      exact Nat.ne_zero_implies_bit_true hn
    · rintro ⟨i, hi⟩ h0
      have hn : n = 0 := by simpa using h0
      subst hn
      simp [Int.testBit] at hi
  | negSucc n =>
    constructor
    · intro _
      exact ⟨n, by simp [Int.testBit, Nat.testBit_lt_two_pow (Nat.lt_two_pow n)]⟩
    · intro _ h0
      exact absurd h0 (by simp)

/-! ## The comparison templates -/

namespace Renderer.ConditionSingle

/-- C1: on integer operands `compare` is the ordinary ordering: under EQ it returns true iff
`a = b`, under NE iff `a ≠ b`, under LE iff `a ≤ b`, under GE iff `a ≥ b`, under LT iff `a < b`
and under GT iff `a > b`, for every pair of integers. -/
theorem compare_int_ordering (a b : Int) :
    (compare .EQ a b = true ↔ a = b) ∧ (compare .NE a b = true ↔ a ≠ b) ∧
    (compare .LE a b = true ↔ a ≤ b) ∧ (compare .GE a b = true ↔ a ≥ b) ∧
    (compare .LT a b = true ↔ a < b) ∧ (compare .GT a b = true ↔ a > b) := by
  simp [compare]

/-- C2: on integer operands `compare` under AND returns true iff `a & b` is non-zero, that is
iff some bit is set in both `a` and `b`; under NAND it returns the negation of that; and
`0x1 AND 0x1` matches while `0x0 AND 0x1` does not. -/
theorem compare_int_bitwise (a b : Int) :
    (compare .AND a b = true ↔ Int.land a b ≠ 0) ∧
    (compare .AND a b = true ↔ ∃ i, a.testBit i = true ∧ b.testBit i = true) ∧
    compare .NAND a b = !compare .AND a b ∧
    compare .AND 0x1 0x1 = true ∧ compare .AND 0x0 0x1 = false := by
  refine ⟨by simp [compare], ?_, by simp [compare], by decide, by decide⟩
  have h := int_ne_zero_iff_exists_testBit (Int.land a b)
  simp only [Int.testBit_land, Bool.and_eq_true] at h
  simpa [compare] using h

/-- C3, as the code has it: on string operands every ordering operator (LT, LE, GT, GE) makes
`compare` return the boolean false, for every pair of strings; no error is raised. -/
theorem compare_QString_ordering_false (a b : QString) :
    compare_QString .LT a b = false ∧ compare_QString .LE a b = false ∧
    compare_QString .GT a b = false ∧ compare_QString .GE a b = false := by
  simp [compare_QString]

/-- C3 fails as stated: the string comparison under the ordering operator LT, on the strings
"a" and "b", does produce a boolean result, namely false; so it is not true that an ordering
operator on strings never produces a boolean comparison result. -/
theorem compare_QString_ordering_not_rejected :
    compare_QString .LT [97] [98] = false ∧
    ¬ (∀ (op : CompType) (a b : QString), op.isOrdering = true →
        ¬ ∃ r : Bool, compare_QString op a b = r) := by
  refine ⟨by decide, fun h => ?_⟩
  exact h .LT [97] [98] (by decide) ⟨false, by decide⟩

/-- C4, as the code has it: on float operands the bitwise operators AND and NAND make
`compare` return the boolean true, for every pair of floats; no error is raised. -/
theorem compare_float_bitwise_true (a b : CFloat) :
    compare_float .AND a b = true ∧ compare_float .NAND a b = true := by
  simp [compare_float]

/-- C4 fails as stated: the float comparison under the bitwise operator AND, on the floats 1
and 2, does produce a boolean result, namely true; so it is not true that a bitwise operator
on floats never produces a boolean comparison result. -/
theorem compare_float_bitwise_not_rejected :
    compare_float .AND (.fin 1) (.fin 2) = true ∧
    ¬ (∀ (op : CompType) (a b : CFloat), op.isBitwise = true →
        ¬ ∃ r : Bool, compare_float op a b = r) := by
  refine ⟨rfl, fun h => ?_⟩
  exact h .AND (.fin 1) (.fin 2) (by decide) ⟨true, rfl⟩

/-- C8: on string operands `compare` returns `a = b` under EQ, `a ≠ b` under NE and false
under every other operator (LE, GE, LT, GT, AND, NAND, NONE), whatever the strings; NE is the
negation of EQ. -/
theorem compare_QString_spec (a b : QString) :
    compare_QString .EQ a b = decide (a = b) ∧
    compare_QString .NE a b = decide (a ≠ b) ∧
    compare_QString .NE a b = !compare_QString .EQ a b ∧
    compare_QString .LE a b = false ∧ compare_QString .GE a b = false ∧
    compare_QString .LT a b = false ∧ compare_QString .GT a b = false ∧
    compare_QString .AND a b = false ∧ compare_QString .NAND a b = false ∧
    compare_QString .NONE a b = false := by
  refine ⟨rfl, rfl, by simp [compare_QString], rfl, rfl, rfl, rfl, rfl, rfl, rfl⟩

/-- C9: under the operator NONE `compare` returns true for every pair of integers and for
every pair of floats, and false for every pair of strings; the float comparison also returns
true for every pair of operands under AND and under NAND. -/
theorem compare_fallback :
    (∀ a b : Int, compare .NONE a b = true) ∧
    (∀ a b : CFloat, compare_float .NONE a b = true) ∧
    (∀ a b : QString, compare_QString .NONE a b = false) ∧
    (∀ a b : CFloat, compare_float .AND a b = true) ∧
    (∀ a b : CFloat, compare_float .NAND a b = true) :=
  ⟨fun _ _ => rfl, fun _ _ => rfl, fun _ _ => rfl, fun _ _ => rfl, fun _ _ => rfl⟩

end Renderer.ConditionSingle

/-! ## Condition groups -/

namespace Renderer.ConditionGroup

/-- C6: a condition group constructed without an argument, as the member `conditions` of a
program is, is an AND group (`isOrGroup()` is false), and one constructed with the argument
`o` has `isOrGroup() = o`. -/
theorem isOrGroup_ctor :
    ctor_default.isOrGroup = false ∧ ∀ o : Bool, (ctor o).isOrGroup = o :=
  ⟨rfl, fun _ => rfl⟩

end Renderer.ConditionGroup

/-! ## `spAttachKf::setLinkArray` -/

/-- Writing back the element a list already has at a position changes nothing. -/
theorem list_set_of_getElem? {α : Type} (l : List α) (i : Nat) (a : α) (h : l[i]? = some a) :
    l.set i a = l := by
  apply List.ext_getElem?
  intro j
  rw [List.getElem?_set]
  split_ifs with h1 h2
  · rw [← h1, h]
  · rw [← h1]
    exact (List.getElem?_eq_none (not_lt.mp h2)).symm
  · rfl

namespace NifModel

/-- Replacing an item keeps the number of blocks. -/
theorem setItem_length (nif : NifModel) (b r : Nat) (it : NifItem) :
    (nif.setItem b r it).blocks.length = nif.blocks.length := by
  unfold setItem
  cases nif.blocks[b]? <;> simp

/-- The items of a model after one of them has been replaced. -/
theorem item?_setItem (nif : NifModel) (b r : Nat) (it old : NifItem)
    (h : nif.item? b r = some old) (b' r' : Nat) :
    (nif.setItem b r it).item? b' r' =
      if b' = b ∧ r' = r then some it else nif.item? b' r' := by
  unfold item? at h
  unfold setItem
  cases hb : nif.blocks[b]? with
  | none => simp [hb] at h
  | some items =>
    simp only [hb] at h
    have hbl : b < nif.blocks.length := (List.getElem?_eq_some.mp hb).1
    have hrl : r < items.length := (List.getElem?_eq_some.mp h).1
    simp only [item?]
    by_cases h1 : b' = b
    · subst h1
      rw [List.getElem?_set_self hbl]
      by_cases h2 : r' = r
      · subst h2
        simp [List.getElem?_set_self hrl]
      · simp [h2, List.getElem?_set_ne (Ne.symm h2), hb]
    · simp [h1, List.getElem?_set_ne (Ne.symm h1)]

/-- The row found for a name holds an item of that name. -/
theorem findName_some (name : QString) (items : List NifItem) (r : Nat)
    (h : findName name items = some r) : ∃ it, items[r]? = some it ∧ it.name = name := by
  induction items generalizing r with
  | nil => simp [findName] at h
  | cons hd tl ih =>
    unfold findName at h
    split_ifs at h with h1
    · cases h
      exact ⟨hd, by simp, h1⟩
    · cases hf : findName name tl with
      | none => simp [hf] at h
      | some r' =>
        simp only [hf, Option.map_some', Option.some.injEq] at h
        subst h
        simpa using ih r' hf

/-- The row found for a name does not change when an item is replaced by one of the same
name. -/
theorem findName_set (name : QString) (items : List NifItem) (r : Nat) (it old : NifItem)
    (h : items[r]? = some old) (hn : it.name = old.name) :
    findName name (items.set r it) = findName name items := by
  induction items generalizing r with
  | nil => simp at h
  | cons hd tl ih =>
    cases r with
    | zero =>
      simp only [List.getElem?_cons_zero, Option.some.injEq] at h
      subst h
      simp [findName, hn]
    | succ r =>
      simp only [List.getElem?_cons_succ] at h
      simp [findName, ih r h]

/-- Replacing an item by one of the same name does not change any name lookup. -/
theorem getIndex_setItem (nif : NifModel) (b r : Nat) (it old : NifItem)
    (h : nif.item? b r = some old) (hn : it.name = old.name) (parent : QModelIndex)
    (name : QString) :
    (nif.setItem b r it).getIndex parent name = nif.getIndex parent name := by
  unfold item? at h
  cases hb : nif.blocks[b]? with
  | none => simp [hb] at h
  | some items =>
    simp only [hb] at h
    have hbl : b < nif.blocks.length := (List.getElem?_eq_some.mp hb).1
    cases parent with
    | invalid => rfl
    | item _ _ => rfl
    | block b' =>
      simp only [getIndex, setItem, hb]
      by_cases h1 : b' = b
      · subst h1
        rw [List.getElem?_set_self hbl, hb]
        simp only [findName_set name items r it old h hn]
      · rw [List.getElem?_set_ne (Ne.symm h1)]

/-- Writing back the item a model already has at a position changes nothing. -/
theorem setItem_self (nif : NifModel) (b r : Nat) (it : NifItem)
    (h : nif.item? b r = some it) : nif.setItem b r it = nif := by
  unfold item? at h
  unfold setItem
  cases hb : nif.blocks[b]? with
  | none => rfl
  | some items =>
    simp only [hb] at h
    simp only
    rw [list_set_of_getElem? items r it h, list_set_of_getElem? nif.blocks b items hb]

/-- A valid result of a name lookup is an item of a block, and that item has the name. -/
theorem getIndex_valid (nif : NifModel) (parent : QModelIndex) (name : QString)
    (h : (nif.getIndex parent name).isValid = true) :
    ∃ b r it, parent = .block b ∧ nif.getIndex parent name = .item b r ∧
      nif.item? b r = some it ∧ it.name = name := by
  cases parent with
  | invalid => simp [getIndex, QModelIndex.isValid] at h
  | item _ _ => simp [getIndex, QModelIndex.isValid] at h
  | block b =>
    simp only [getIndex] at h ⊢
    cases hb : nif.blocks[b]? with
    | none => simp [hb, QModelIndex.isValid] at h
    | some items =>
      simp only [hb] at h ⊢
      cases hf : findName name items with
      | none => simp [hf, QModelIndex.isValid] at h
      | some r =>
        obtain ⟨it, hit, hname⟩ := findName_some name items r hf
        exact ⟨b, r, it, rfl, rfl, by simp [item?, hb, hit], hname⟩

/-- The block number of an index depends on the model only through its number of blocks. -/
theorem getBlockNumber_congr (nif nif' : NifModel) (h : nif'.blocks.length = nif.blocks.length)
    (i : QModelIndex) : nif'.getBlockNumber i = nif.getBlockNumber i := by
  cases i <;> simp [getBlockNumber, h]

/-- The name of a count item differs from the name of its array. -/
theorem numName_ne (array : QString) : numName array ≠ array := by
  intro h
  have := congrArg List.length h
  simp [numName] at this
  omega

end NifModel

namespace spAttachKf

/-- The loop leaves the given links in place and appends, in the order given and each once,
the block numbers that the links do not contain. -/
theorem appendBlocks_spec (nif : NifModel) (iBlocks : List QModelIndex) (links : List Int) :
    ∃ added, appendBlocks nif links iBlocks = links ++ added ∧ added.Nodup ∧
      added.Sublist (iBlocks.map nif.getBlockNumber) ∧
      ∀ x, x ∈ added ↔ (x ∈ iBlocks.map nif.getBlockNumber ∧ x ∉ links) := by
  induction iBlocks generalizing links with
  | nil => exact ⟨[], by simp [appendBlocks], List.nodup_nil, List.Sublist.slnil, by simp⟩
  | cons ib rest ih =>
    by_cases hmem : nif.getBlockNumber ib ∈ links
    · obtain ⟨added, heq, hnd, hsub, hiff⟩ := ih links
      refine ⟨added, ?_, hnd, ?_, ?_⟩
      · simp only [appendBlocks, List.foldl_cons, hmem, if_true] at heq ⊢
        exact heq
      · simpa using hsub.cons (nif.getBlockNumber ib)
      · intro x
        rw [hiff x]
        constructor
        · rintro ⟨h1, h2⟩
          exact ⟨by simp [List.mem_map] at h1 ⊢; exact Or.inr h1, h2⟩
        · rintro ⟨h1, h2⟩
          refine ⟨?_, h2⟩
          simp only [List.map_cons, List.mem_cons] at h1
          rcases h1 with h1 | h1
          · rw [h1] at h2
            exact absurd hmem h2
          · exact h1
    · obtain ⟨added, heq, hnd, hsub, hiff⟩ := ih (links ++ [nif.getBlockNumber ib])
      refine ⟨nif.getBlockNumber ib :: added, ?_, ?_, ?_, ?_⟩
      · simp only [appendBlocks, List.foldl_cons, hmem, if_false] at heq ⊢
        rw [heq]
        simp
      · refine List.nodup_cons.mpr ⟨?_, hnd⟩
        intro hx
        have := ((hiff _).mp hx).2
        simp at this
      · simpa using hsub.cons₂ (nif.getBlockNumber ib)
      · intro x
        simp only [List.mem_cons, List.map_cons, hiff x, List.mem_append, List.mem_singleton,
          not_or, List.not_mem_nil, or_false]
        constructor
        · rintro (h | ⟨h1, h2, _⟩)
          · exact ⟨Or.inl h, by rw [h]; exact hmem⟩
          · exact ⟨Or.inr h1, h2⟩
        · rintro ⟨h1 | h1, h2⟩
          · exact Or.inl h1
          · by_cases hx : x = nif.getBlockNumber ib
            · exact Or.inl hx
            · exact Or.inr ⟨h1, h2, hx⟩

/-- The loop appends nothing when the links already contain every block number. -/
theorem appendBlocks_of_mem (nif : NifModel) (iBlocks : List QModelIndex) (links : List Int)
    (h : ∀ ib ∈ iBlocks, nif.getBlockNumber ib ∈ links) :
    appendBlocks nif links iBlocks = links := by
  induction iBlocks with
  | nil => rfl
  | cons ib rest ih =>
    have h1 : nif.getBlockNumber ib ∈ links := h ib (List.mem_cons_self _ _)
    have h2 := ih (fun x hx => h x (List.mem_cons_of_mem _ hx))
    simp only [appendBlocks, List.foldl_cons, h1, if_true] at h2 ⊢
    exact h2

end spAttachKf

namespace NifModel

/-- Resizing gives the requested number of rows. -/
theorem length_resize (n : Nat) (ls : List Int) : (resize n ls).length = n := by
  simp only [resize, List.length_append, List.length_take, List.length_replicate]
  omega

/-- Resizing to the present number of rows changes nothing. -/
theorem resize_length (ls : List Int) : resize ls.length ls = ls := by
  simp [resize]

end NifModel

namespace spAttachKf

/-- A call of `setLinkArray` that finds both items returns normally; afterwards the array
holds the links the loop computed, the count item holds their number, and the two items are
found where they were. -/
theorem setLinkArray_run (nif : NifModel) (b rn ra : Nat) (array : QString)
    (numIt arrIt : NifItem) (iBlocks : List QModelIndex)
    (h : Located nif b rn ra array numIt arrIt) :
    setLinkArray nif (.block b) array iBlocks =
        (.ok (), written nif b rn ra numIt arrIt (appendBlocks nif arrIt.links iBlocks)) ∧
      (written nif b rn ra numIt arrIt (appendBlocks nif arrIt.links iBlocks)).blocks.length =
        nif.blocks.length ∧
      Located (written nif b rn ra numIt arrIt (appendBlocks nif arrIt.links iBlocks))
        b rn ra array
        { numIt with value := ((appendBlocks nif arrIt.links iBlocks).length : Int) }
        { arrIt with links := appendBlocks nif arrIt.links iBlocks } := by
  obtain ⟨hnum, harr, inum, iarr, hname, hne⟩ := h
  set L := appendBlocks nif arrIt.links iBlocks with hL
  set A : NifItem := { numIt with value := (L.length : Int) } with hA
  set B : NifItem := { arrIt with links := NifModel.resize L.length arrIt.links } with hB
  set C : NifItem := { arrIt with links := L } with hC
  -- the three writes
  have e1 : nif.set_int (.item b rn) (L.length : Int) = nif.setItem b rn A := by
    simp [NifModel.set_int, inum, hA]
  have i1n : (nif.setItem b rn A).item? b rn = some A := by
    simp [NifModel.item?_setItem nif b rn A numIt inum]
  have i1a : (nif.setItem b rn A).item? b ra = some arrIt := by
    rw [NifModel.item?_setItem nif b rn A numIt inum, if_neg (fun hh => hne hh.2.symm), iarr]
  have g1 : ∀ parent name, (nif.setItem b rn A).getIndex parent name = nif.getIndex parent name :=
    fun parent name => NifModel.getIndex_setItem nif b rn A numIt inum rfl parent name
  have e2 : (nif.setItem b rn A).updateArray (.item b ra) =
      (nif.setItem b rn A).setItem b ra B := by
    simp [NifModel.updateArray, i1a, g1, hname, hnum, i1n, hA, hB]
  have i2n : ((nif.setItem b rn A).setItem b ra B).item? b rn = some A := by
    rw [NifModel.item?_setItem _ b ra B arrIt i1a, if_neg (fun hh => hne hh.2), i1n]
  have i2a : ((nif.setItem b rn A).setItem b ra B).item? b ra = some B := by
    simp [NifModel.item?_setItem _ b ra B arrIt i1a]
  have g2 : ∀ parent name,
      ((nif.setItem b rn A).setItem b ra B).getIndex parent name = nif.getIndex parent name :=
    fun parent name =>
      (NifModel.getIndex_setItem _ b ra B arrIt i1a rfl parent name).trans (g1 parent name)
  have hBC : ({ B with links := L.take B.links.length ++ B.links.drop L.length } : NifItem) = C := by
    have hlen : B.links.length = L.length := NifModel.length_resize _ _
    simp only [hC, hB] at hlen ⊢
    rw [hlen, List.take_length, List.drop_eq_nil_of_le (le_of_eq hlen), List.append_nil]
  have e3 : ((nif.setItem b rn A).setItem b ra B).setLinkArray (.item b ra) L =
      ((nif.setItem b rn A).setItem b ra B).setItem b ra C := by
    simp only [NifModel.setLinkArray, i2a, hBC]
  have i3n : (((nif.setItem b rn A).setItem b ra B).setItem b ra C).item? b rn = some A := by
    rw [NifModel.item?_setItem _ b ra C B i2a, if_neg (fun hh => hne hh.2), i2n]
  have i3a : (((nif.setItem b rn A).setItem b ra B).setItem b ra C).item? b ra = some C := by
    simp [NifModel.item?_setItem _ b ra C B i2a]
  have g3 : ∀ parent name,
      (((nif.setItem b rn A).setItem b ra B).setItem b ra C).getIndex parent name =
        nif.getIndex parent name :=
    fun parent name =>
      (NifModel.getIndex_setItem _ b ra C B i2a rfl parent name).trans (g2 parent name)
  have hw : written nif b rn ra numIt arrIt L =
      ((nif.setItem b rn A).setItem b ra B).setItem b ra C := rfl
  rw [hw]
  refine ⟨?_, ?_, ?_⟩
  · have hget : nif.getLinkArray (.item b ra) = arrIt.links := by
      simp [NifModel.getLinkArray, iarr]
    simp only [setLinkArray, hnum, harr, QModelIndex.isValid, hget, ← hL, e1, e2, e3]
    rfl
  · simp [NifModel.setItem_length]
  · exact ⟨(g3 _ _).trans hnum, (g3 _ _).trans harr, i3n, i3a, hname, hne⟩

/-- A call of `setLinkArray` on a model whose array already holds every block number, and
whose count item holds the number of rows, leaves the model as it is. -/
theorem setLinkArray_fixed (nif : NifModel) (b rn ra : Nat) (array : QString)
    (numIt arrIt : NifItem) (iBlocks : List QModelIndex)
    (h : Located nif b rn ra array numIt arrIt)
    (hval : numIt.value = (arrIt.links.length : Int))
    (hmem : ∀ ib ∈ iBlocks, nif.getBlockNumber ib ∈ arrIt.links) :
    setLinkArray nif (.block b) array iBlocks = (.ok (), nif) := by
  obtain ⟨hrun, _, _⟩ := setLinkArray_run nif b rn ra array numIt arrIt iBlocks h
  rw [hrun, appendBlocks_of_mem nif iBlocks arrIt.links hmem]
  have hA : ({ numIt with value := (arrIt.links.length : Int) } : NifItem) = numIt := by
    rw [← hval]
  have hB : ({ arrIt with links := NifModel.resize arrIt.links.length arrIt.links } : NifItem)
      = arrIt := by
    rw [NifModel.resize_length]
  simp only [written, hA, hB, NifModel.setItem_self nif b rn numIt h.inum,
    NifModel.setItem_self nif b ra arrIt h.iarr]

end spAttachKf

namespace spAttachKf

/-- C10: when both the count item `Num <array>` and the array exist, `setLinkArray` returns
normally and stores as the array's links the previous links, unchanged and in order, followed
by the block numbers of the given blocks that the links did not contain, in the order given and
each once, and stores the length of that list in the count item; no previous link is removed,
every given block's number is in the result, and a second call with the same blocks leaves the
model unchanged.  When one of the two items is missing it throws `array <array> not found` and
the model is as it was. -/
theorem setLinkArray_spec (nif : NifModel) (iParent : QModelIndex) (array : QString)
    (iBlocks : List QModelIndex) :
    if ((nif.getIndex iParent (NifModel.numName array)).isValid &&
        (nif.getIndex iParent array).isValid) = true then
      ∃ added nif',
        setLinkArray nif iParent array iBlocks = (.ok (), nif') ∧
        nif'.getIndex iParent (NifModel.numName array)
          = nif.getIndex iParent (NifModel.numName array) ∧
        nif'.getIndex iParent array = nif.getIndex iParent array ∧
        nif'.getLinkArray (nif.getIndex iParent array)
          = nif.getLinkArray (nif.getIndex iParent array) ++ added ∧
        added.Nodup ∧ added.Sublist (iBlocks.map nif.getBlockNumber) ∧
        (∀ x, x ∈ added ↔
          (x ∈ iBlocks.map nif.getBlockNumber ∧ x ∉ nif.getLinkArray (nif.getIndex iParent array))) ∧
        nif'.get_int (nif.getIndex iParent (NifModel.numName array))
          = ((nif'.getLinkArray (nif.getIndex iParent array)).length : Int) ∧
        (∀ l ∈ nif.getLinkArray (nif.getIndex iParent array),
          l ∈ nif'.getLinkArray (nif.getIndex iParent array)) ∧
        (∀ ib ∈ iBlocks, nif.getBlockNumber ib ∈ nif'.getLinkArray (nif.getIndex iParent array)) ∧
        setLinkArray nif' iParent array iBlocks = (.ok (), nif')
    else
      setLinkArray nif iParent array iBlocks = (.error (arrayNotFound array), nif) := by
  split_ifs with hv
  · rw [Bool.and_eq_true] at hv
    obtain ⟨b, rn, numIt, hp, hnum, inum, hnumName⟩ :=
      NifModel.getIndex_valid nif iParent _ hv.1
    obtain ⟨b', ra, arrIt, hp', harr, iarr, hname⟩ :=
      NifModel.getIndex_valid nif iParent _ hv.2
    have hb : b' = b := by
      rw [hp] at hp'
      exact (QModelIndex.block.inj hp').symm
    subst hb
    subst hp
    have hne : rn ≠ ra := by
      intro hh
      rw [hh, iarr] at inum
      have := Option.some.inj inum
      rw [this, hnumName] at hname
      exact NifModel.numName_ne array hname
    have hloc : Located nif b' rn ra array numIt arrIt := ⟨hnum, harr, inum, iarr, hname, hne⟩
    obtain ⟨hrun, hlen, hloc'⟩ := setLinkArray_run nif b' rn ra array numIt arrIt iBlocks hloc
    obtain ⟨added, heq, hnd, hsub, hiff⟩ := appendBlocks_spec nif iBlocks arrIt.links
    have hold : nif.getLinkArray (.item b' ra) = arrIt.links := by
      simp [NifModel.getLinkArray, iarr]
    have hnew : (written nif b' rn ra numIt arrIt (appendBlocks nif arrIt.links iBlocks)).getLinkArray
        (.item b' ra) = appendBlocks nif arrIt.links iBlocks := by
      simp [NifModel.getLinkArray, hloc'.iarr]
    have hmem : ∀ ib ∈ iBlocks,
        nif.getBlockNumber ib ∈ appendBlocks nif arrIt.links iBlocks := by
      intro ib hib
      rw [heq, List.mem_append]
      by_cases hin : nif.getBlockNumber ib ∈ arrIt.links
      · exact Or.inl hin
      · exact Or.inr ((hiff _).mpr ⟨List.mem_map_of_mem _ hib, hin⟩)
    refine ⟨added, _, hrun, ?_, ?_, ?_, hnd, hsub, ?_, ?_, ?_, ?_, ?_⟩
    · rw [hloc'.hnum, hnum]
    · rw [hloc'.harr, harr]
    · rw [harr, hnew, hold, heq]
    · rw [harr, hold]
      exact hiff
    · rw [hnum, harr, hnew]
      simp [NifModel.get_int, hloc'.inum]
    · intro l hl
      rw [harr, hnew, heq]
      rw [harr, hold] at hl
      exact List.mem_append_left _ hl
    · rw [harr, hnew]
      exact hmem
    · apply setLinkArray_fixed _ b' rn ra array _ _ iBlocks hloc' rfl
      intro ib hib
      rw [NifModel.getBlockNumber_congr nif _ hlen ib]
      exact hmem ib hib
  · have hv' : (!(nif.getIndex iParent (NifModel.numName array)).isValid ||
        !(nif.getIndex iParent array).isValid) = true := by
      cases h1 : (nif.getIndex iParent (NifModel.numName array)).isValid <;>
        cases h2 : (nif.getIndex iParent array).isValid <;> simp_all
    simp only [setLinkArray, hv', if_true]

/-- An example run: block 1 holds `Num x = 2` and the array `x` with links 5 and 0; attaching
the blocks 0, 2, 0 and an index outside the model appends 2 and then the null link -1, once
each. -/
theorem setLinkArray_example :
    setLinkArray ⟨[[], [⟨NifModel.numName [120], 2, []⟩, ⟨[120], 0, [5, 0]⟩], []]⟩ (.block 1) [120]
        [.block 0, .block 2, .block 0, .block 9] =
      (.ok (), ⟨[[], [⟨NifModel.numName [120], 4, []⟩, ⟨[120], 0, [5, 0, 2, -1]⟩], []]⟩) ∧
    setLinkArray ⟨[[], [⟨NifModel.numName [120], 2, []⟩, ⟨[120], 0, [5, 0]⟩], []]⟩ (.block 0) [120]
        [.block 0, .block 2, .block 0, .block 9] =
      (.error (arrayNotFound [120]),
        ⟨[[], [⟨NifModel.numName [120], 2, []⟩, ⟨[120], 0, [5, 0]⟩], []]⟩) := by
  constructor <;> rfl

end spAttachKf
